import Mathlib

/-!
Shallow embedding of the coordination-network-toolkit, together with proofs
of the specification claims about it.

The definitions mirror the Python source:

- `similarity`, `MinDocSizeSimilarity` mirror
  coordination_network_toolkit/similarity.py (division is modelled in
  `Option`, with `none` standing for a raised `ZeroDivisionError`);
- `ingestOne` / `preprocess_data` mirror
  coordination_network_toolkit/preprocess.py (SQLite `insert or ignore`
  is modelled by `insertOrIgnoreEdge` / `insertOrIgnoreUrl`);
- `computeNetwork` mirrors the common SQL query shape of
  coordination_network_toolkit/compute_networks.py: an inner self-join
  with a temporal band predicate, grouped by the pair of user ids,
  aggregated with `count(distinct e_1.message_id)` and filtered by
  `having weight >= min_edge_weight`; the per-kind predicates and
  candidate user queries instantiate it;
- `userBatches` mirrors the batching arithmetic in
  `parallise_query_by_user_id`;
- `get_edge_rows` mirrors coordination_network_toolkit/graph.py.
-/

namespace CoordNet

/-! ### Similarity predicates (similarity.py) -/

/-- Helper for `pySplit`: walk the character list, accumulating the current
token (in reverse) and emitting it at each whitespace run or at the end. -/
def pySplitAux : List Char → List Char → List String
  | [], acc => if acc = [] then [] else [String.mk acc.reverse]
  | c :: rest, acc =>
    if c.isWhitespace then
      if acc = [] then pySplitAux rest []
      else String.mk acc.reverse :: pySplitAux rest []
    else pySplitAux rest (c :: acc)

/-- Python's `str.split()` with no argument: split on whitespace runs,
dropping empty fragments. -/
def pySplit (s : String) : List String :=
  pySplitAux s.data []

/-- The token set of a whitespace-joined token string, Python's
`set(tokens.split())`. -/
def tokenSet (s : String) : Finset String :=
  (pySplit s).toFinset

/-- Python division `a / b`, which raises `ZeroDivisionError` when `b = 0`;
the raised error is modelled as `none`. -/
def pyDiv (a b : ℚ) : Option ℚ :=
  if b = 0 then none else some (a / b)

/-- Mirror of `similarity(tokens_1, tokens_2)`: Jaccard similarity of the
two whitespace-split token sets, `len(set_1 & set_2) / len(set_1 | set_2)`. -/
def similarity (tokens_1 tokens_2 : String) : Option ℚ :=
  let set_1 := tokenSet tokens_1
  let set_2 := tokenSet tokens_2
  pyDiv ((set_1 ∩ set_2).card : ℚ) ((set_1 ∪ set_2).card : ℚ)

/-- Mirror of `MinDocSizeSimilarity.__call__`: return 0 when either token
set is smaller than `min_tokens`, otherwise plain Jaccard similarity. -/
def MinDocSizeSimilarity (min_tokens : ℕ) (tokens_1 tokens_2 : String) :
    Option ℚ :=
  let set_1 := tokenSet tokens_1
  if set_1.card < min_tokens then some 0
  else
    let set_2 := tokenSet tokens_2
    if set_2.card < min_tokens then some 0
    else pyDiv ((set_1 ∩ set_2).card : ℚ) ((set_1 ∪ set_2).card : ℚ)

/-! ### Data model and ingestion (database.py, preprocess.py) -/

/-- A row of the `edge` table, following the schema in
`initialise_db`: `message_id` is the primary key, `repost_id` and
`reply_id` are nullable, the `transformed_message*` and `token_set`
columns are derived and nullable, and `timestamp` is numeric. -/
structure MsgRow where
  message_id : String
  user_id : String
  username : String
  repost_id : Option String
  reply_id : Option String
  message : String
  transformed_message : Option String
  transformed_message_length : Option ℤ
  transformed_message_hash : Option ℤ
  token_set : Option String
  timestamp : ℚ
deriving DecidableEq, Repr

/-- A row of the `message_url` table: primary key `(message_id, url)`. -/
structure UrlRow where
  message_id : String
  url : String
  timestamp : ℚ
  user_id : String
deriving DecidableEq, Repr

/-- An input tuple as handed to `preprocess_data`: `repost_id` and
`reply_id` are raw strings (empty normalizes to null), the timestamp is
taken after the `float(timestamp)` parse. -/
structure InTuple where
  message_id : String
  user_id : String
  username : String
  repost_id : String
  reply_id : String
  message : String
  timestamp : ℚ
  urls : List String
deriving DecidableEq, Repr

/-- The Python idiom `x or None` on a string field: an empty string
normalizes to null. -/
def strOrNone (s : String) : Option String :=
  if s = "" then none else some s

/-- The database state relevant to ingestion: the `edge` and
`message_url` tables, as ordered lists of rows. -/
structure DbState where
  edge : List MsgRow
  message_url : List UrlRow
deriving DecidableEq, Repr

/-- The freshly initialised database: both tables empty. -/
def initialState : DbState := ⟨[], []⟩

/-- The SQL `insert or ignore into edge`: the insert is dropped when a row
with the same `message_id` primary key already exists. -/
def insertOrIgnoreEdge (t : List MsgRow) (r : MsgRow) : List MsgRow :=
  if t.any (fun x => x.message_id == r.message_id) then t else t ++ [r]

/-- The SQL `insert or ignore into message_url`: the insert is dropped when
a row with the same `(message_id, url)` primary key already exists. -/
def insertOrIgnoreUrl (t : List UrlRow) (r : UrlRow) : List UrlRow :=
  if t.any (fun x => x.message_id == r.message_id && x.url == r.url) then t
  else t ++ [r]

/-- The `edge` row built by `preprocess_data` from an input tuple: the
derived columns are null, the repost and reply ids are normalized. -/
def mkRow (t : InTuple) : MsgRow :=
  ⟨t.message_id, t.user_id, t.username, strOrNone t.repost_id,
    strOrNone t.reply_id, t.message, none, none, none, none, t.timestamp⟩

/-- One iteration of the row loop of `preprocess_data`: insert-or-ignore
the message row, then, only when the normalized repost id is null,
insert-or-ignore one `message_url` row per attached URL. -/
def ingestOne (s : DbState) (t : InTuple) : DbState :=
  ⟨insertOrIgnoreEdge s.edge (mkRow t),
    if (strOrNone t.repost_id).isNone then
      t.urls.foldl
        (fun acc url =>
          insertOrIgnoreUrl acc ⟨t.message_id, url, t.timestamp, t.user_id⟩)
        s.message_url
    else s.message_url⟩

/-- Mirror of `preprocess_data`: ingest every tuple of the batch in order.
(The surrounding transaction is not modelled: the claims below concern the
committed state.) -/
def preprocess_data (s : DbState) (msgs : List InTuple) : DbState :=
  msgs.foldl ingestOne s

/-- SQL lookup of the `edge` row stored under a `message_id` key. -/
def findMsg (s : DbState) (mid : String) : Option MsgRow :=
  s.edge.find? (fun r => r.message_id == mid)

/-- SQL lookup of the `message_url` row stored under a `(message_id, url)`
key. -/
def findUrl (s : DbState) (mid url : String) : Option UrlRow :=
  s.message_url.find? (fun r => r.message_id == mid && r.url == url)

/-- A tuple is fully absorbed by a state: its message id is present in the
`edge` table and, when it is not a repost, each of its URLs is present in
`message_url` under its key. -/
def doneTuple (s : DbState) (t : InTuple) : Prop :=
  (∃ r ∈ s.edge, r.message_id = t.message_id) ∧
    ((strOrNone t.repost_id).isNone = true →
      ∀ url ∈ t.urls,
        ∃ ur ∈ s.message_url, ur.message_id = t.message_id ∧ ur.url = url)

/-! ### Concrete witness data for the ingestion claims -/

/-- A stored `edge` row with key "m1". -/
def exRow : MsgRow :=
  ⟨"m1", "uA", "A", none, none, "hi", none, none, none, none, 0⟩

/-- A stored `message_url` row with key ("m1", "u"). -/
def exUrlRow : UrlRow := ⟨"m1", "u", 0, "uA"⟩

/-- A state holding `exRow` and `exUrlRow`. -/
def exState : DbState := ⟨[exRow], [exUrlRow]⟩

/-- A tuple that conflicts with `exRow` on the "m1" key: every other
field differs. -/
def exTuple : InTuple := ⟨"m1", "uB", "B", "", "x", "bye", 5, ["u2"]⟩

/-! ### Coordination engine (compute_networks.py) -/

/-- The cartesian base `from t e_1 inner join t e_2` of a self-join. -/
def crossJoin {α β : Type} (l1 : List α) (l2 : List β) : List (α × β) :=
  l1.flatMap (fun a => l2.map (fun b => (a, b)))

/-- The temporal band predicate shared by every network query:
`e_2.timestamp between e_1.timestamp - ?1 and e_1.timestamp + ?1`. -/
def timeBand (T t1 t2 : ℚ) : Bool :=
  decide (t1 - T ≤ t2) && decide (t2 ≤ t1 + T)

/-- The joined row pairs of the common self-join query shape: all pairs
satisfying the kind's join predicate and the temporal band, with the
`e_1` side restricted to the candidate users
(`where user_1 in (select user_id from user_id)`; the restriction is a
filter whether it appears in the `on` clause or the `where` clause,
because the join is inner). -/
def joinedPairs {R : Type} (rows : List R) (userOf : R → String)
    (tsOf : R → ℚ) (pred : R → R → Bool) (T : ℚ)
    (candidates : List String) : List (R × R) :=
  (crossJoin rows rows).filter fun p =>
    pred p.1 p.2 && timeBand T (tsOf p.1) (tsOf p.2) &&
      decide (userOf p.1 ∈ candidates)

/-- The aggregate `count(distinct e_1.message_id)` of the group keyed by
`(u1, u2)` under `group by e_1.user_id, e_2.user_id`. -/
def groupWeight {R : Type} (userOf msgIdOf : R → String)
    (joined : List (R × R)) (u1 u2 : String) : ℕ :=
  (((joined.filter fun p => userOf p.1 == u1 && userOf p.2 == u2).map
      fun p => msgIdOf p.1).dedup).length

/-- Relational semantics of the shared query shape of the five network
computations: self-join with the kind's predicate and the temporal band,
restrict `e_1` to candidate users, group by the user pair, aggregate
`count(distinct e_1.message_id)` as the weight and keep groups with
`having weight >= min_edge_weight`. The union over the per-user batches
assembled by `parallise_query_by_user_id` produces exactly the groups of
the unpartitioned query, since each group key's `e_1` side lies in exactly
one batch. -/
def computeNetwork {R : Type} (rows : List R) (userOf msgIdOf : R → String)
    (tsOf : R → ℚ) (pred : R → R → Bool) (T : ℚ) (mew : ℕ)
    (candidates : List String) : List (String × String × ℕ) :=
  let joined := joinedPairs rows userOf tsOf pred T candidates
  let keys := (joined.map fun p => (userOf p.1, userOf p.2)).dedup
  (keys.map fun k =>
      (k.1, k.2, groupWeight userOf msgIdOf joined k.1 k.2)).filter
    fun r => decide (mew ≤ r.2.2)

/-- SQL equality on two nullable columns: null compares equal to nothing. -/
def rowValEq {α : Type} [BEq α] : Option α → Option α → Bool
  | some a, some b => a == b
  | _, _ => false

/-- The co_retweet join predicate `e_1.repost_id = e_2.repost_id` (null
never matches, so both sides must be reposts). -/
def coRetweetPred (e_1 e_2 : MsgRow) : Bool :=
  rowValEq e_1.repost_id e_2.repost_id

/-- The co_retweet candidate user query: users with at least
`min_edge_weight` rows whose `repost_id` is not null. -/
def coRetweetCandidates (rows : List MsgRow) (mew : ℕ) : List String :=
  (((rows.filter fun r => r.repost_id.isSome).map
      (fun r => r.user_id)).dedup).filter
    fun u => decide (mew ≤
      (rows.filter fun r => r.repost_id.isSome && r.user_id == u).length)

/-- Mirror of `compute_co_retweet_parallel`: the co_retweet network. -/
def compute_co_retweet_parallel (rows : List MsgRow) (T : ℚ) (mew : ℕ) :
    List (String × String × ℕ) :=
  computeNetwork rows (fun r => r.user_id) (fun r => r.message_id)
    (fun r => r.timestamp) coRetweetPred T mew (coRetweetCandidates rows mew)

/-- The co_tweet join predicate: row-value equality of
`(transformed_message_length, transformed_message_hash,
transformed_message)` plus `repost_id is null` on both sides. -/
def coTweetPred (e_1 e_2 : MsgRow) : Bool :=
  rowValEq e_1.transformed_message_length e_2.transformed_message_length &&
    rowValEq e_1.transformed_message_hash e_2.transformed_message_hash &&
    rowValEq e_1.transformed_message e_2.transformed_message &&
    e_1.repost_id.isNone && e_2.repost_id.isNone

/-- The candidate user query shared by co_tweet and co_similar_tweet:
users with at least `min_edge_weight` non-repost rows. -/
def nonRepostCandidates (rows : List MsgRow) (mew : ℕ) : List String :=
  (((rows.filter fun r => r.repost_id.isNone).map
      (fun r => r.user_id)).dedup).filter
    fun u => decide (mew ≤
      (rows.filter fun r => r.repost_id.isNone && r.user_id == u).length)

/-- Mirror of `compute_co_tweet_network` (after the text-normalisation
update has filled the derived columns). -/
def compute_co_tweet_network (rows : List MsgRow) (T : ℚ) (mew : ℕ) :
    List (String × String × ℕ) :=
  computeNetwork rows (fun r => r.user_id) (fun r => r.message_id)
    (fun r => r.timestamp) coTweetPred T mew (nonRepostCandidates rows mew)

/-- The co_reply join predicate: `e_1.reply_id = e_2.reply_id` (null
never matches) plus `repost_id is null` on both sides. -/
def coReplyPred (e_1 e_2 : MsgRow) : Bool :=
  rowValEq e_1.reply_id e_2.reply_id &&
    e_1.repost_id.isNone && e_2.repost_id.isNone

/-- The co_reply candidate user query: users with at least
`min_edge_weight` non-repost rows with a reply id. -/
def coReplyCandidates (rows : List MsgRow) (mew : ℕ) : List String :=
  (((rows.filter fun r => r.repost_id.isNone && r.reply_id.isSome).map
      (fun r => r.user_id)).dedup).filter
    fun u => decide (mew ≤
      (rows.filter fun r =>
        r.repost_id.isNone && r.reply_id.isSome && r.user_id == u).length)

/-- Mirror of `compute_co_reply_network`. -/
def compute_co_reply_network (rows : List MsgRow) (T : ℚ) (mew : ℕ) :
    List (String × String × ℕ) :=
  computeNetwork rows (fun r => r.user_id) (fun r => r.message_id)
    (fun r => r.timestamp) coReplyPred T mew (coReplyCandidates rows mew)

/-- The co_similar_tweet join filter: both sides non-repost with a
non-null `token_set`, and the registered similarity predicate at least
the threshold. A similarity call that raises is modelled as a failed
filter; it cannot fire on rows whose token sets are non-empty. -/
def coSimilarPred (threshold : ℚ) (e_1 e_2 : MsgRow) : Bool :=
  e_1.repost_id.isNone && e_2.repost_id.isNone &&
    match e_1.token_set, e_2.token_set with
    | some s1, some s2 =>
      (similarity s1 s2).any (fun q => decide (threshold ≤ q))
    | _, _ => false

/-- Mirror of `compute_co_similar_tweet` (after tokenization has filled
`token_set`). -/
def compute_co_similar_tweet (rows : List MsgRow) (T : ℚ)
    (threshold : ℚ) (mew : ℕ) : List (String × String × ℕ) :=
  computeNetwork rows (fun r => r.user_id) (fun r => r.message_id)
    (fun r => r.timestamp) (coSimilarPred threshold) T mew
    (nonRepostCandidates rows mew)

/-- The co_link join predicate on `message_url` rows: `e_1.url = e_2.url`. -/
def coLinkPred (e_1 e_2 : UrlRow) : Bool :=
  e_1.url == e_2.url

/-- The co_link candidate user query: users with at least
`min_edge_weight` rows in `message_url`. -/
def coLinkCandidates (mu : List UrlRow) (mew : ℕ) : List String :=
  ((mu.map (fun r => r.user_id)).dedup).filter
    fun u => decide (mew ≤ (mu.filter fun r => r.user_id == u).length)

/-- Mirror of `compute_co_link_network` in the unresolved variant, reading
the `message_url` table. -/
def compute_co_link_network (mu : List UrlRow) (T : ℚ) (mew : ℕ) :
    List (String × String × ℕ) :=
  computeNetwork mu (fun r => r.user_id) (fun r => r.message_id)
    (fun r => r.timestamp) coLinkPred T mew (coLinkCandidates mu mew)

/-- The joined pairs of a network computation over `edge` rows. -/
def msgJoinedPairs (pred : MsgRow → MsgRow → Bool) (rows : List MsgRow)
    (T : ℚ) (candidates : List String) : List (MsgRow × MsgRow) :=
  joinedPairs rows (fun r => r.user_id) (fun r => r.timestamp) pred T
    candidates

/-- The joined pairs of the co_link computation over `message_url` rows. -/
def urlJoinedPairs (mu : List UrlRow) (T : ℚ)
    (candidates : List String) : List (UrlRow × UrlRow) :=
  joinedPairs mu (fun r => r.user_id) (fun r => r.timestamp) coLinkPred T
    candidates

/-- The `count(distinct e_1.message_id)` a row `(a, b)` of an edge table
carries: the number of distinct message ids among `a`'s rows that match
some row of `b` under the kind's join predicate within the time band. -/
def distinctSourceCount {R : Type} (rows : List R)
    (userOf msgIdOf : R → String) (tsOf : R → ℚ) (pred : R → R → Bool)
    (T : ℚ) (a b : String) : ℕ :=
  ((rows.filter fun m1 => userOf m1 == a &&
      rows.any fun m2 => userOf m2 == b && pred m1 m2 &&
        timeBand T (tsOf m1) (tsOf m2)).map msgIdOf).dedup.length

/-- `distinctSourceCount` specialised to `edge` rows. -/
def msgSourceCount (pred : MsgRow → MsgRow → Bool) (rows : List MsgRow)
    (T : ℚ) (a b : String) : ℕ :=
  distinctSourceCount rows (fun r => r.user_id) (fun r => r.message_id)
    (fun r => r.timestamp) pred T a b

/-- `distinctSourceCount` specialised to `message_url` rows with the
co_link predicate. -/
def urlSourceCount (mu : List UrlRow) (T : ℚ) (a b : String) : ℕ :=
  distinctSourceCount mu (fun r => r.user_id) (fun r => r.message_id)
    (fun r => r.timestamp) coLinkPred T a b

/-! ### Batching (parallise_query_by_user_id) -/

/-- Fuel-driven worker for `pyRange`: emit `start` and advance by `step`
while below `stop`. The fuel bounds the number of remaining candidates,
keeping the recursion structural. -/
def pyRangeFuel (stop step : ℕ) : ℕ → ℕ → List ℕ
  | 0, _ => []
  | fuel + 1, start =>
    if start < stop then start :: pyRangeFuel stop step fuel (start + step)
    else []

/-- Python's `range(start, stop, step)` for a positive step: the indices
`start, start + step, ...` below `stop`. (Python raises on `step = 0`;
that case is unreachable here because the batch size is at least 1.) -/
def pyRange (start stop step : ℕ) : List ℕ :=
  pyRangeFuel stop step (stop - start) start

/-- The `target_batches = n_processes * 10` of
`parallise_query_by_user_id`. -/
def target_batches (n_processes : ℕ) : ℕ := n_processes * 10

/-- The `batch_size = max(math.floor(len(user_ids) / target_batches), 1)`
of `parallise_query_by_user_id` (natural division is the floor). -/
def batch_size (n_users n_processes : ℕ) : ℕ :=
  max (n_users / target_batches n_processes) 1

/-- The batch list
`[user_ids[i : i + batch_size] for i in range(0, len(user_ids), batch_size)]`
of `parallise_query_by_user_id`. -/
def userBatches (user_ids : List String) (n_processes : ℕ) :
    List (List String) :=
  (pyRange 0 user_ids.length (batch_size user_ids.length n_processes)).map
    fun i => (user_ids.drop i).take (batch_size user_ids.length n_processes)

/-- Helper for reasoning about `userBatches`: the canonical chunking of a
list into contiguous slices of `bs` elements (last slice possibly
shorter). -/
def chunksRec {α : Type} (bs : ℕ) : List α → List (List α)
  | [] => []
  | x :: xs =>
    (x :: xs).take (max bs 1) :: chunksRec bs ((x :: xs).drop (max bs 1))
termination_by l => l.length
decreasing_by
  simp only [List.length_drop, List.length_cons]
  omega

/-- Eleven candidate users, for the batching counterexample. -/
def ex5Users : List String := List.replicate 11 "u"

/-- Concrete `edge` rows for the co_retweet counterexample and witnesses:
user "u1" reposts message "X" twice, user "u2" reposts it once, all at
the same time. -/
def exRows3 : List MsgRow :=
  [⟨"a", "u1", "n", some "X", none, "m", none, none, none, none, 0⟩,
   ⟨"b", "u1", "n", some "X", none, "m", none, none, none, none, 0⟩,
   ⟨"c", "u2", "n", some "X", none, "m", none, none, none, none, 0⟩]

/-- A repost input tuple (repost id "X") carrying a URL. -/
def exC3t1 : InTuple := ⟨"mr", "u1", "n", "X", "", "hello", 0, ["u"]⟩

/-- A non-repost input tuple with no URLs. -/
def exC3t2 : InTuple := ⟨"mn", "u2", "n", "", "", "world", 0, []⟩

/-- A simple ingestion batch with distinct message ids. -/
def exC3ts : List InTuple := [exC3t1, exC3t2]

/-- The stored row of the repost tuple `exC3t1`. -/
def exC3m : MsgRow := mkRow exC3t1

/-! ### Output adapter (graph.py, database.py) -/

/-- Mirror of `COMMAND_TABLE_MAPPING`: the CLI network kinds and their
edge tables. -/
def COMMAND_TABLE_MAPPING : List (String × String) :=
  [("co_retweet", "co_retweet_network"),
   ("co_tweet", "co_tweet_network"),
   ("co_reply", "co_reply_network"),
   ("co_link", "co_link_network"),
   ("co_similar_tweet", "co_similar_tweet_network")]

/-- Lexicographic comparison of character lists, the order SQLite uses to
compare the text user ids in `user_2 > user_1`. -/
def charListLt : List Char → List Char → Bool
  | [], [] => false
  | [], _ :: _ => true
  | _ :: _, [] => false
  | a :: as, b :: bs =>
    if a < b then true else if b < a then false else charListLt as bs

/-- Strict lexicographic order on the string user ids. -/
def strLt (s t : String) : Bool := charListLt s.data t.data

/-- Non-strict lexicographic order on the string user ids. -/
def strLe (s t : String) : Bool := strLt s t || s == t

/-- The set of edge tables present in the database file, each with its
rows; a table is present exactly when its computation has been run. -/
def lookupTable (db : List (String × List (String × String × ℕ)))
    (table : String) : Option (List (String × String × ℕ)) :=
  (db.find? (fun x => x.1 == table)).map (fun x => x.2)

/-- A computed co_retweet edge table used by the output witnesses. -/
def exTableRows : List (String × String × ℕ) :=
  [("a", "b", 2), ("b", "a", 2), ("a", "a", 1)]

/-- A database in which only the co_retweet network was computed. -/
def exDb : List (String × List (String × String × ℕ)) :=
  [("co_retweet_network", exTableRows)]

/-- Mirror of `get_edge_rows`: emit the rows of the requested network's
edge table under the symmetry/self-loop policy, appending the network
kind as the `edge_type` tag; an unknown command raises `ValueError`, and
querying a table that was never computed raises an operational error
(both modelled as `Except.error`). -/
def get_edge_rows (db : List (String × List (String × String × ℕ)))
    (command : String) (symmetric loops : Bool) :
    Except String (List (String × String × ℕ × String)) :=
  match COMMAND_TABLE_MAPPING.find? (fun x => x.1 == command) with
  | none => Except.error ("No known table for command " ++ command ++ ".")
  | some entry =>
    match lookupTable db entry.2 with
    | none => Except.error ("no such table: " ++ entry.2)
    | some rows =>
      let sel :=
        if symmetric && loops then rows
        else if symmetric then rows.filter fun r => r.1 != r.2.1
        else if loops then rows.filter fun r => strLe r.1 r.2.1
        else rows.filter fun r => strLt r.1 r.2.1
      Except.ok (sel.map fun r => (r.1, r.2.1, r.2.2, command))

end CoordNet

namespace CoordNet

/-! ### Helper lemmas about ingestion -/

theorem mem_insertOrIgnoreEdge_of_mem {es : List MsgRow} {x r : MsgRow}
    (h : r ∈ es) : r ∈ insertOrIgnoreEdge es x := by
  unfold insertOrIgnoreEdge
  split
  · exact h
  · exact List.mem_append_left _ h

theorem mem_insertOrIgnoreUrl_of_mem {mu : List UrlRow} {x r : UrlRow}
    (h : r ∈ mu) : r ∈ insertOrIgnoreUrl mu x := by
  unfold insertOrIgnoreUrl
  split
  · exact h
  · exact List.mem_append_left _ h

theorem mem_urlFold_of_mem {urls : List String} {mu : List UrlRow}
    {r : UrlRow} (mid : String) (ts : ℚ) (uid : String) (h : r ∈ mu) :
    r ∈ urls.foldl
      (fun acc url => insertOrIgnoreUrl acc ⟨mid, url, ts, uid⟩) mu := by
  induction urls generalizing mu with
  | nil => exact h
  | cons u rest ih => exact ih (mem_insertOrIgnoreUrl_of_mem h)

theorem mem_ingestOne_edge_of_mem {s : DbState} {t : InTuple} {r : MsgRow}
    (h : r ∈ s.edge) : r ∈ (ingestOne s t).edge :=
  mem_insertOrIgnoreEdge_of_mem h

theorem mem_ingestOne_mu_of_mem {s : DbState} {t : InTuple} {r : UrlRow}
    (h : r ∈ s.message_url) : r ∈ (ingestOne s t).message_url := by
  show r ∈ (if (strOrNone t.repost_id).isNone then _ else s.message_url)
  split
  · exact mem_urlFold_of_mem _ _ _ h
  · exact h

theorem doneTuple_ingestOne_mono {s : DbState} {t t' : InTuple}
    (h : doneTuple s t) : doneTuple (ingestOne s t') t := by
  obtain ⟨⟨r, hr, hrid⟩, hurls⟩ := h
  refine ⟨⟨r, mem_ingestOne_edge_of_mem hr, hrid⟩, fun hrep url hu => ?_⟩
  obtain ⟨ur, hur, hkey⟩ := hurls hrep url hu
  exact ⟨ur, mem_ingestOne_mu_of_mem hur, hkey⟩

theorem doneTuple_preprocess_mono {s : DbState} {t : InTuple}
    {ts : List InTuple} (h : doneTuple s t) :
    doneTuple (preprocess_data s ts) t := by
  induction ts generalizing s with
  | nil => exact h
  | cons t' rest ih => exact ih (doneTuple_ingestOne_mono h)

theorem insertOrIgnoreEdge_covers (es : List MsgRow) (x : MsgRow) :
    ∃ r ∈ insertOrIgnoreEdge es x, r.message_id = x.message_id := by
  unfold insertOrIgnoreEdge
  split_ifs with h
  · obtain ⟨r, hr, hpr⟩ := List.any_eq_true.mp h
    exact ⟨r, hr, by simpa using hpr⟩
  · exact ⟨x, List.mem_append_right _ (List.mem_singleton_self x), rfl⟩

theorem insertOrIgnoreUrl_covers (mu : List UrlRow) (x : UrlRow) :
    ∃ r ∈ insertOrIgnoreUrl mu x,
      r.message_id = x.message_id ∧ r.url = x.url := by
  unfold insertOrIgnoreUrl
  split_ifs with h
  · obtain ⟨r, hr, hpr⟩ := List.any_eq_true.mp h
    simp only [Bool.and_eq_true, beq_iff_eq] at hpr
    exact ⟨r, hr, hpr⟩
  · exact ⟨x, List.mem_append_right _ (List.mem_singleton_self x), rfl, rfl⟩

theorem urlFold_covers (urls : List String) (mu : List UrlRow)
    (mid : String) (ts : ℚ) (uid : String) :
    ∀ url ∈ urls,
      ∃ r ∈ urls.foldl
          (fun acc url => insertOrIgnoreUrl acc ⟨mid, url, ts, uid⟩) mu,
        r.message_id = mid ∧ r.url = url := by
  induction urls generalizing mu with
  | nil => intro url hu; exact absurd hu (List.not_mem_nil url)
  | cons u rest ih =>
    intro url hu
    rw [List.foldl_cons]
    rcases List.mem_cons.mp hu with hcase | hcase
    · subst hcase
      obtain ⟨r, hr, hkey⟩ :=
        insertOrIgnoreUrl_covers mu ⟨mid, url, ts, uid⟩
      exact ⟨r, mem_urlFold_of_mem mid ts uid hr, hkey⟩
    · exact ih _ url hcase

theorem ingestOne_edge_def (s : DbState) (t : InTuple) :
    (ingestOne s t).edge = insertOrIgnoreEdge s.edge (mkRow t) := rfl

theorem ingestOne_mu_def (s : DbState) (t : InTuple) :
    (ingestOne s t).message_url =
      if (strOrNone t.repost_id).isNone then
        t.urls.foldl
          (fun acc url =>
            insertOrIgnoreUrl acc ⟨t.message_id, url, t.timestamp, t.user_id⟩)
          s.message_url
      else s.message_url := rfl

theorem ingestOne_done (s : DbState) (t : InTuple) :
    doneTuple (ingestOne s t) t := by
  constructor
  · exact insertOrIgnoreEdge_covers s.edge _
  · intro hrep url hu
    rw [ingestOne_mu_def, if_pos hrep]
    exact urlFold_covers t.urls s.message_url t.message_id t.timestamp
      t.user_id url hu

theorem insertOrIgnoreEdge_noop {es : List MsgRow} {x : MsgRow}
    (h : ∃ r ∈ es, r.message_id = x.message_id) :
    insertOrIgnoreEdge es x = es := by
  unfold insertOrIgnoreEdge
  rw [if_pos]
  obtain ⟨r, hr, hid⟩ := h
  exact List.any_eq_true.mpr ⟨r, hr, by simpa using hid⟩

theorem insertOrIgnoreUrl_noop {mu : List UrlRow} {x : UrlRow}
    (h : ∃ r ∈ mu, r.message_id = x.message_id ∧ r.url = x.url) :
    insertOrIgnoreUrl mu x = mu := by
  unfold insertOrIgnoreUrl
  rw [if_pos]
  obtain ⟨r, hr, hid⟩ := h
  exact List.any_eq_true.mpr ⟨r, hr, by simp [hid.1, hid.2]⟩

theorem urlFold_noop {urls : List String} {mu : List UrlRow} {mid : String}
    {ts : ℚ} {uid : String}
    (h : ∀ url ∈ urls, ∃ r ∈ mu, r.message_id = mid ∧ r.url = url) :
    urls.foldl (fun acc url => insertOrIgnoreUrl acc ⟨mid, url, ts, uid⟩) mu
      = mu := by
  induction urls with
  | nil => rfl
  | cons u rest ih =>
    have hhead : insertOrIgnoreUrl mu ⟨mid, u, ts, uid⟩ = mu :=
      insertOrIgnoreUrl_noop (h u (List.mem_cons_self u rest))
    simp only [List.foldl_cons, hhead]
    exact ih (fun url hu => h url (List.mem_cons_of_mem u hu))

theorem ingestOne_noop {s : DbState} {t : InTuple} (h : doneTuple s t) :
    ingestOne s t = s := by
  obtain ⟨hmsg, hurls⟩ := h
  have hedge : (ingestOne s t).edge = s.edge := by
    rw [ingestOne_edge_def]
    exact insertOrIgnoreEdge_noop hmsg
  have hmu : (ingestOne s t).message_url = s.message_url := by
    rw [ingestOne_mu_def]
    by_cases hrep : (strOrNone t.repost_id).isNone = true
    · rw [if_pos hrep, urlFold_noop (hurls hrep)]
    · rw [if_neg hrep]
  calc ingestOne s t
      = ⟨(ingestOne s t).edge, (ingestOne s t).message_url⟩ := rfl
    _ = ⟨s.edge, s.message_url⟩ := by rw [hedge, hmu]
    _ = s := rfl

theorem preprocess_noop {s : DbState} {ts : List InTuple}
    (h : ∀ t ∈ ts, doneTuple s t) : preprocess_data s ts = s := by
  induction ts with
  | nil => rfl
  | cons t rest ih =>
    unfold preprocess_data
    simp only [List.foldl_cons, ingestOne_noop (h t (List.mem_cons_self t rest))]
    exact ih (fun t' ht' => h t' (List.mem_cons_of_mem t ht'))

theorem preprocess_all_done (ts : List InTuple) (s : DbState) :
    ∀ t ∈ ts, doneTuple (preprocess_data s ts) t := by
  induction ts generalizing s with
  | nil => intro t ht; exact absurd ht (List.not_mem_nil t)
  | cons t' rest ih =>
    intro t ht
    unfold preprocess_data
    rw [List.foldl_cons]
    rcases List.mem_cons.mp ht with hcase | hcase
    · subst hcase
      exact doneTuple_preprocess_mono (ingestOne_done s t)
    · exact ih (ingestOne s t') t hcase

/-! ### Claim theorems for ingestion -/

/-- C6: ingestion is idempotent. Running `preprocess_data` twice on the
same batch of tuples leaves the `edge` and `message_url` tables exactly as
one run leaves them, because both inserts ignore conflicts on their
primary keys. -/
theorem preprocess_idempotent (s : DbState) (msgs : List InTuple) :
    preprocess_data (preprocess_data s msgs) msgs =
      preprocess_data s msgs :=
  preprocess_noop (preprocess_all_done msgs s)

theorem find?_append_left {α : Type} {l₁ : List α} (l₂ : List α)
    {p : α → Bool} {a : α} (h : l₁.find? p = some a) :
    (l₁ ++ l₂).find? p = some a := by
  induction l₁ with
  | nil => exact absurd h (by simp)
  | cons x xs ih =>
    by_cases hx : p x = true
    · rw [List.find?_cons_of_pos _ hx] at h
      rw [List.cons_append, List.find?_cons_of_pos _ hx]
      exact h
    · rw [List.find?_cons_of_neg _ hx] at h
      rw [List.cons_append, List.find?_cons_of_neg _ hx]
      exact ih h

theorem find?_insertOrIgnoreUrl_stable {mu : List UrlRow} {x : UrlRow}
    {p : UrlRow → Bool} {ur : UrlRow} (h : mu.find? p = some ur) :
    (insertOrIgnoreUrl mu x).find? p = some ur := by
  unfold insertOrIgnoreUrl
  split_ifs
  · exact h
  · exact find?_append_left _ h

theorem find?_urlFold_stable {urls : List String} {mu : List UrlRow}
    {mid : String} {ts : ℚ} {uid : String} {p : UrlRow → Bool}
    {ur : UrlRow} (h : mu.find? p = some ur) :
    (urls.foldl
        (fun acc url => insertOrIgnoreUrl acc ⟨mid, url, ts, uid⟩)
        mu).find? p = some ur := by
  induction urls generalizing mu with
  | nil => exact h
  | cons u rest ih => exact ih (find?_insertOrIgnoreUrl_stable h)

/-- C10: first insertion wins. If a row is already stored under
`t.message_id` in the `edge` table, ingesting a further tuple `t` (with
arbitrary other fields) leaves every column of that stored row unchanged,
and every row already stored in `message_url` under a `(message_id, url)`
key is likewise unchanged. -/
theorem first_insertion_wins (s : DbState) (t : InTuple) (r : MsgRow)
    (h : findMsg s t.message_id = some r) :
    findMsg (ingestOne s t) t.message_id = some r ∧
      ∀ mid url ur, findUrl s mid url = some ur →
        findUrl (ingestOne s t) mid url = some ur := by
  unfold findMsg at h
  have hr_mem : r ∈ s.edge := List.mem_of_find?_eq_some h
  have hr_id := List.find?_some h
  have hedge : (ingestOne s t).edge = s.edge := by
    rw [ingestOne_edge_def]
    exact insertOrIgnoreEdge_noop ⟨r, hr_mem, by simpa using hr_id⟩
  constructor
  · unfold findMsg
    rw [hedge]
    exact h
  · intro mid url ur hur
    unfold findUrl at hur ⊢
    rw [ingestOne_mu_def]
    split_ifs
    · exact find?_urlFold_stable hur
    · exact hur

/-- C10 witness: a concrete state holding a row under key "m1" and a URL
row under key ("m1", "u"); ingesting a conflicting tuple with the same
message id but different user, username, repost, reply, text and
timestamp leaves both stored rows unchanged. -/
theorem first_insertion_wins_witness :
    findMsg (ingestOne exState exTuple) "m1" = some exRow ∧
      findUrl (ingestOne exState exTuple) "m1" "u" = some exUrlRow :=
  ⟨(first_insertion_wins exState exTuple exRow (by decide)).1,
    (first_insertion_wins exState exTuple exRow (by decide)).2 "m1" "u"
      exUrlRow (by decide)⟩

end CoordNet

namespace CoordNet

/-- C4 counterexample: on two empty token strings the plain similarity
function evaluates `0 / 0` and raises `ZeroDivisionError` (modelled as
`none`); it does not return 0. -/
theorem similarity_empty_counterexample :
    similarity "" "" = none ∧ similarity "" "" ≠ some 0 := by
  decide

/-- C4 (amended): the plain similarity predicate is defined exactly for
those pairs of token strings whose token sets are not both empty; when the
union of the token sets is empty it raises a division error instead of
returning a value. -/
theorem similarity_defined_iff (tokens_1 tokens_2 : String) :
    (similarity tokens_1 tokens_2).isSome = true ↔
      (tokenSet tokens_1 ∪ tokenSet tokens_2) ≠ ∅ := by
  unfold similarity pyDiv
  by_cases h : ((tokenSet tokens_1 ∪ tokenSet tokens_2).card : ℚ) = 0
  · simp only [h, if_pos]
    simp only [Option.isSome_none, Bool.false_eq_true, false_iff, ne_eq,
      not_not]
    exact Finset.card_eq_zero.mp (Nat.cast_injective h)
  · simp only [h, if_neg, not_false_iff]
    simp only [Option.isSome_some, true_iff, ne_eq]
    intro hempty
    exact h (by rw [hempty]; simp)

/-- C9: for every `min_tokens` of at least 1 the MinDocSizeSimilarity
predicate always returns a value (it never divides by an empty union,
because the guards return 0 first whenever either token set has fewer than
`min_tokens` elements, which covers every case where the union could be
empty). -/
theorem min_doc_size_similarity_total (k : ℕ) (tokens_1 tokens_2 : String)
    (hk : 1 ≤ k) :
    (∃ q, MinDocSizeSimilarity k tokens_1 tokens_2 = some q) ∧
      (((tokenSet tokens_1).card < k ∨ (tokenSet tokens_2).card < k) →
        MinDocSizeSimilarity k tokens_1 tokens_2 = some 0) := by
  unfold MinDocSizeSimilarity
  by_cases h1 : (tokenSet tokens_1).card < k
  · simp [h1]
  · by_cases h2 : (tokenSet tokens_2).card < k
    · simp [h1, h2]
    · have hcard : 1 ≤ (tokenSet tokens_1 ∪ tokenSet tokens_2).card := by
        have hsub : (tokenSet tokens_1).card ≤
            (tokenSet tokens_1 ∪ tokenSet tokens_2).card :=
          Finset.card_le_card Finset.subset_union_left
        omega
      have hne : ((tokenSet tokens_1 ∪ tokenSet tokens_2).card : ℚ) ≠ 0 := by
        exact_mod_cast Nat.one_le_iff_ne_zero.mp hcard
      rw [if_neg h1, if_neg h2]
      unfold pyDiv
      rw [if_neg hne]
      refine ⟨⟨_, rfl⟩, fun hcases => ?_⟩
      cases hcases with
      | inl h => exact absurd h h1
      | inr h => exact absurd h h2

/-- C9 witness: the theorem instantiated at `min_tokens = 1` and the
concrete token strings "a" and "". -/
theorem min_doc_size_similarity_total_witness :
    (∃ q, MinDocSizeSimilarity 1 "a" "" = some q) ∧
      (((tokenSet "a").card < 1 ∨ (tokenSet "").card < 1) →
        MinDocSizeSimilarity 1 "a" "" = some 0) :=
  min_doc_size_similarity_total 1 "a" "" (by decide)

end CoordNet

namespace CoordNet

/-! ### Helper lemmas about the coordination engine -/

theorem mem_crossJoin {α β : Type} {l1 : List α} {l2 : List β} {p : α × β} :
    p ∈ crossJoin l1 l2 ↔ p.1 ∈ l1 ∧ p.2 ∈ l2 := by
  cases p with
  | mk a b =>
    unfold crossJoin
    simp only [List.mem_flatMap, List.mem_map, Prod.mk.injEq]
    constructor
    · rintro ⟨x, hx, y, hy, rfl, rfl⟩
      exact ⟨hx, hy⟩
    · rintro ⟨ha, hb⟩
      exact ⟨a, ha, b, hb, rfl, rfl⟩

theorem mem_joinedPairs {R : Type} {rows : List R} {userOf : R → String}
    {tsOf : R → ℚ} {pred : R → R → Bool} {T : ℚ} {cands : List String}
    {p : R × R} :
    p ∈ joinedPairs rows userOf tsOf pred T cands ↔
      p.1 ∈ rows ∧ p.2 ∈ rows ∧ pred p.1 p.2 = true ∧
        timeBand T (tsOf p.1) (tsOf p.2) = true ∧ userOf p.1 ∈ cands := by
  unfold joinedPairs
  rw [List.mem_filter, mem_crossJoin]
  simp only [Bool.and_eq_true, decide_eq_true_eq, and_assoc]

theorem timeBand_symm {T t1 t2 : ℚ} (h : timeBand T t1 t2 = true) :
    timeBand T t2 t1 = true := by
  unfold timeBand at h ⊢
  simp only [Bool.and_eq_true, decide_eq_true_eq] at h ⊢
  obtain ⟨h1, h2⟩ := h
  constructor <;> linarith

theorem groupWeight_pos {R : Type} {userOf msgIdOf : R → String}
    {joined : List (R × R)} {u1 u2 : String} {p : R × R}
    (hp : p ∈ joined) (h1 : userOf p.1 = u1) (h2 : userOf p.2 = u2) :
    1 ≤ groupWeight userOf msgIdOf joined u1 u2 := by
  unfold groupWeight
  have hpf : p ∈ joined.filter
      fun q => userOf q.1 == u1 && userOf q.2 == u2 :=
    List.mem_filter.mpr ⟨hp, by simp [h1, h2]⟩
  have hmm : msgIdOf p.1 ∈ (joined.filter
      fun q => userOf q.1 == u1 && userOf q.2 == u2).map
        fun q => msgIdOf q.1 :=
    List.mem_map_of_mem _ hpf
  exact List.length_pos.mpr (List.ne_nil_of_mem (List.mem_dedup.mpr hmm))

theorem mem_computeNetwork {R : Type} {rows : List R}
    {userOf msgIdOf : R → String} {tsOf : R → ℚ} {pred : R → R → Bool}
    {T : ℚ} {mew : ℕ} {cands : List String} {u1 u2 : String} {w : ℕ} :
    (u1, u2, w) ∈ computeNetwork rows userOf msgIdOf tsOf pred T mew cands ↔
      ((∃ p ∈ joinedPairs rows userOf tsOf pred T cands,
          userOf p.1 = u1 ∧ userOf p.2 = u2) ∧
        w = groupWeight userOf msgIdOf
            (joinedPairs rows userOf tsOf pred T cands) u1 u2 ∧
        mew ≤ w) := by
  unfold computeNetwork
  simp only [List.mem_filter, List.mem_map, List.mem_dedup,
    decide_eq_true_eq]
  constructor
  · rintro ⟨⟨k, ⟨q, hq, hqk⟩, hkeq⟩, hmew⟩
    simp only [Prod.mk.injEq] at hkeq
    obtain ⟨hk1, hk2, hk3⟩ := hkeq
    have hq1 : userOf q.1 = u1 := by rw [← hk1, ← hqk]
    have hq2 : userOf q.2 = u2 := by rw [← hk2, ← hqk]
    refine ⟨⟨q, hq, hq1, hq2⟩, ?_, ?_⟩
    · rw [← hk3, hk1, hk2]
    · simpa using hmew
  · rintro ⟨⟨q, hq, hq1, hq2⟩, hw, hmew⟩
    refine ⟨⟨(u1, u2), ⟨q, hq, by rw [hq1, hq2]⟩, ?_⟩, by simpa using hmew⟩
    show (u1, u2, groupWeight userOf msgIdOf _ u1 u2) = (u1, u2, w)
    rw [← hw]

/-! ### Claim theorems for the engine weight (C2) -/

theorem groupWeight_eq_distinctSourceCount {R : Type} (rows : List R)
    (userOf msgIdOf : R → String) (tsOf : R → ℚ) (pred : R → R → Bool)
    (T : ℚ) (cands : List String) (a b : String) (hcand : a ∈ cands) :
    groupWeight userOf msgIdOf (joinedPairs rows userOf tsOf pred T cands)
        a b =
      distinctSourceCount rows userOf msgIdOf tsOf pred T a b := by
  have hAB : ∀ x,
      (x ∈ ((joinedPairs rows userOf tsOf pred T cands).filter
          fun q => userOf q.1 == a && userOf q.2 == b).map
            fun q => msgIdOf q.1) ↔
      (x ∈ (rows.filter fun m1 => userOf m1 == a &&
          rows.any fun m2 => userOf m2 == b && pred m1 m2 &&
            timeBand T (tsOf m1) (tsOf m2)).map msgIdOf) := by
    intro x
    constructor
    · intro hx
      obtain ⟨q, hqf, hxeq⟩ := List.mem_map.mp hx
      obtain ⟨hqj, hqcond⟩ := List.mem_filter.mp hqf
      obtain ⟨hq1, hq2, hpred, hband, _⟩ := mem_joinedPairs.mp hqj
      simp only [Bool.and_eq_true, beq_iff_eq] at hqcond
      apply List.mem_map.mpr
      refine ⟨q.1, List.mem_filter.mpr ⟨hq1, ?_⟩, hxeq⟩
      simp only [Bool.and_eq_true, beq_iff_eq, List.any_eq_true]
      exact ⟨hqcond.1, q.2, hq2, ⟨hqcond.2, hpred⟩, hband⟩
    · intro hx
      obtain ⟨m1, hm1f, hxeq⟩ := List.mem_map.mp hx
      obtain ⟨hm1, hcond⟩ := List.mem_filter.mp hm1f
      simp only [Bool.and_eq_true, beq_iff_eq, List.any_eq_true] at hcond
      obtain ⟨hu1, m2, hm2, hcond2⟩ := hcond
      obtain ⟨⟨hu2, hpred⟩, hband⟩ := hcond2
      apply List.mem_map.mpr
      refine ⟨(m1, m2), List.mem_filter.mpr
        ⟨mem_joinedPairs.mpr ⟨hm1, hm2, hpred, hband, hu1 ▸ hcand⟩, ?_⟩,
        hxeq⟩
      simp only [Bool.and_eq_true, beq_iff_eq]
      exact ⟨hu1, hu2⟩
  unfold groupWeight distinctSourceCount
  rw [← List.card_toFinset, ← List.card_toFinset]
  congr 1
  ext x
  simp only [List.mem_toFinset]
  exact hAB x

/-- C2: every row `(u1, u2, w)` that a network computation writes to its
edge table has `w` equal to the number of distinct `e_1.message_id`
values among the rows of user `u1` that match some row of user `u2`
under the kind's join predicate within the time window, and
`w ≥ min_edge_weight`. Stated for the shared query shape of all five
computations, with arbitrary join predicate and candidate list. -/
theorem edge_weight_characterisation {R : Type} (rows : List R)
    (userOf msgIdOf : R → String) (tsOf : R → ℚ) (pred : R → R → Bool)
    (T : ℚ) (mew : ℕ) (cands : List String) (u1 u2 : String) (w : ℕ)
    (hmem : (u1, u2, w) ∈
      computeNetwork rows userOf msgIdOf tsOf pred T mew cands) :
    w = ((rows.filter fun m1 => userOf m1 == u1 &&
            rows.any fun m2 => userOf m2 == u2 && pred m1 m2 &&
              timeBand T (tsOf m1) (tsOf m2)).map msgIdOf).dedup.length ∧
      mew ≤ w := by
  obtain ⟨⟨p0, hp0, hp01, hp02⟩, hw, hmew⟩ := mem_computeNetwork.mp hmem
  refine ⟨?_, hmew⟩
  have hcand : u1 ∈ cands := by
    rw [← hp01]
    exact (mem_joinedPairs.mp hp0).2.2.2.2
  rw [hw]
  exact groupWeight_eq_distinctSourceCount rows userOf msgIdOf tsOf pred
    T cands u1 u2 hcand

/-- C2 witness: the characterisation applied to the concrete co_retweet
input `exRows3`, whose table contains the row ("u1", "u2", 2). -/
theorem edge_weight_characterisation_witness :
    2 = ((exRows3.filter fun m1 => m1.user_id == "u1" &&
            exRows3.any fun m2 => m2.user_id == "u2" &&
              coRetweetPred m1 m2 &&
              timeBand 1 m1.timestamp m2.timestamp).map
          fun r => r.message_id).dedup.length ∧
      1 ≤ 2 :=
  edge_weight_characterisation exRows3 (fun r => r.user_id)
    (fun r => r.message_id) (fun r => r.timestamp) coRetweetPred 1 1
    (coRetweetCandidates exRows3 1) "u1" "u2" 2
    (by with_unfolding_all decide)

end CoordNet

namespace CoordNet

/-! ### Claim theorems for edge-set symmetry (C1) -/

theorem rowValEq_symm {α : Type} [BEq α] [LawfulBEq α] {a b : Option α}
    (h : rowValEq a b = true) : rowValEq b a = true := by
  cases a <;> cases b <;> simp_all [rowValEq]

theorem rowValEq_isSome {α : Type} [BEq α] {a b : Option α}
    (h : rowValEq a b = true) : a.isSome = true ∧ b.isSome = true := by
  cases a <;> cases b <;> simp_all [rowValEq]

theorem coRetweetPred_symm {a b : MsgRow} (h : coRetweetPred a b = true) :
    coRetweetPred b a = true :=
  rowValEq_symm h

theorem coRetweetPred_isSome_right {a b : MsgRow}
    (h : coRetweetPred a b = true) : b.repost_id.isSome = true :=
  (rowValEq_isSome h).2

/-- C1 counterexample: on `exRows3` (user "u1" reposts message "X" twice,
user "u2" once, simultaneously) the co_retweet table with
`time_window = 1` and `min_edge_weight = 1` contains ("u1", "u2", 2) but
not its mirror with the same weight ("u2", "u1", 2): the weight counts
distinct originating messages of `user_1` only and is direction-dependent
(the table holds ("u2", "u1", 1)). -/
theorem co_retweet_symmetry_counterexample :
    ("u1", "u2", 2) ∈ compute_co_retweet_parallel exRows3 1 1 ∧
      "u1" ≠ "u2" ∧
      ("u2", "u1", 2) ∉ compute_co_retweet_parallel exRows3 1 1 ∧
      ("u2", "u1", 1) ∈ compute_co_retweet_parallel exRows3 1 1 := by
  with_unfolding_all decide

end CoordNet

namespace CoordNet

/-! ### Claim theorems for repost exclusion (C3) -/

theorem coTweetPred_isNone {a b : MsgRow} (h : coTweetPred a b = true) :
    a.repost_id.isNone = true ∧ b.repost_id.isNone = true := by
  unfold coTweetPred at h
  simp only [Bool.and_eq_true] at h
  exact ⟨h.1.2, h.2⟩

theorem coReplyPred_isNone {a b : MsgRow} (h : coReplyPred a b = true) :
    a.repost_id.isNone = true ∧ b.repost_id.isNone = true := by
  unfold coReplyPred at h
  simp only [Bool.and_eq_true] at h
  exact ⟨h.1.2, h.2⟩

theorem coSimilarPred_isNone {threshold : ℚ} {a b : MsgRow}
    (h : coSimilarPred threshold a b = true) :
    a.repost_id.isNone = true ∧ b.repost_id.isNone = true := by
  unfold coSimilarPred at h
  simp only [Bool.and_eq_true] at h
  exact ⟨h.1.1, h.1.2⟩

theorem joined_no_repost {pred : MsgRow → MsgRow → Bool}
    (hpred : ∀ a b, pred a b = true →
      a.repost_id.isNone = true ∧ b.repost_id.isNone = true)
    {rows : List MsgRow} {T : ℚ} {cands : List String} {m : MsgRow}
    (hm : m.repost_id.isSome = true) :
    ∀ p ∈ msgJoinedPairs pred rows T cands, p.1 ≠ m ∧ p.2 ≠ m := by
  intro p hp
  unfold msgJoinedPairs at hp
  obtain ⟨_, _, hpr, _, _⟩ := mem_joinedPairs.mp hp
  obtain ⟨h1, h2⟩ := hpred _ _ hpr
  constructor
  · rintro rfl
    exact absurd hm (by simp [Option.isNone_iff_eq_none.mp h1])
  · rintro rfl
    exact absurd hm (by simp [Option.isNone_iff_eq_none.mp h2])

theorem insertOrIgnoreEdge_fresh {es : List MsgRow} {x : MsgRow}
    (h : ∀ r ∈ es, r.message_id ≠ x.message_id) :
    insertOrIgnoreEdge es x = es ++ [x] := by
  unfold insertOrIgnoreEdge
  rw [if_neg]
  intro hc
  obtain ⟨r, hr, hb⟩ := List.any_eq_true.mp hc
  exact h r hr (by simpa using hb)

theorem mem_urlFold_split {urls : List String} {mu : List UrlRow}
    {mid : String} {ts0 : ℚ} {uid : String} {ur : UrlRow}
    (h : ur ∈ urls.foldl
      (fun acc url => insertOrIgnoreUrl acc ⟨mid, url, ts0, uid⟩) mu) :
    ur ∈ mu ∨ ur.message_id = mid := by
  induction urls generalizing mu with
  | nil => exact Or.inl h
  | cons u rest ih =>
    rw [List.foldl_cons] at h
    rcases ih h with hin | hmid
    · unfold insertOrIgnoreUrl at hin
      split_ifs at hin
      · exact Or.inl hin
      · rcases List.mem_append.mp hin with hmu | hone
        · exact Or.inl hmu
        · right
          rw [List.mem_singleton.mp hone]
    · exact Or.inr hmid

theorem preprocess_link_invariant (ts : List InTuple) (s : DbState)
    (h1a : (s.edge.map (fun r => r.message_id)).Nodup)
    (h1b : ∀ ur ∈ s.message_url,
      ∃ r ∈ s.edge, r.message_id = ur.message_id ∧ r.repost_id = none)
    (h2 : (ts.map (fun t => t.message_id)).Nodup)
    (h3 : ∀ t ∈ ts, ∀ r ∈ s.edge, r.message_id ≠ t.message_id) :
    ((preprocess_data s ts).edge.map (fun r => r.message_id)).Nodup ∧
      ∀ ur ∈ (preprocess_data s ts).message_url,
        ∃ r ∈ (preprocess_data s ts).edge,
          r.message_id = ur.message_id ∧ r.repost_id = none := by
  induction ts generalizing s with
  | nil => exact ⟨h1a, h1b⟩
  | cons t rest ih =>
    unfold preprocess_data
    rw [List.foldl_cons]
    have hfresh : ∀ r ∈ s.edge, r.message_id ≠ (mkRow t).message_id :=
      fun r hr => h3 t (List.mem_cons_self t rest) r hr
    have hedge : (ingestOne s t).edge = s.edge ++ [mkRow t] := by
      rw [ingestOne_edge_def]
      exact insertOrIgnoreEdge_fresh hfresh
    rw [List.map_cons, List.nodup_cons] at h2
    obtain ⟨hnotin, hrest⟩ := h2
    apply ih (ingestOne s t)
    · rw [hedge, List.map_append]
      apply List.Nodup.append h1a (by simp)
      intro a ha hb
      simp only [List.map_cons, List.map_nil, List.mem_singleton] at hb
      obtain ⟨r, hr, hrid⟩ := List.mem_map.mp ha
      exact hfresh r hr (by rw [hrid, hb])
    · intro ur hur
      rw [ingestOne_mu_def] at hur
      split_ifs at hur with hrep
      · rcases mem_urlFold_split hur with hin | hmid
        · obtain ⟨r, hr, hprop⟩ := h1b ur hin
          exact ⟨r, by rw [hedge]; exact List.mem_append_left _ hr, hprop⟩
        · refine ⟨mkRow t,
            by rw [hedge];
               exact List.mem_append_right _ (List.mem_singleton_self _),
            hmid.symm, ?_⟩
          show strOrNone t.repost_id = none
          exact Option.isNone_iff_eq_none.mp hrep
      · obtain ⟨r, hr, hprop⟩ := h1b ur hur
        exact ⟨r, by rw [hedge]; exact List.mem_append_left _ hr, hprop⟩
    · exact hrest
    · intro t' ht' r hr
      rw [hedge] at hr
      rcases List.mem_append.mp hr with hrs | hrt
      · exact h3 t' (List.mem_cons_of_mem t ht') r hrs
      · rw [List.mem_singleton.mp hrt]
        intro heq
        have hmem : t'.message_id ∈ rest.map (fun t => t.message_id) :=
          List.mem_map_of_mem _ ht'
        rw [← heq] at hmem
        exact hnotin hmem

/-- C3: repost exclusion. A row with `repost_id` present never appears on
either side of a joined pair of the co_tweet, co_reply or
co_similar_tweet computations (their join predicates require
`repost_id is null` on both sides); and, for a database ingested by
`preprocess_data` from input tuples with pairwise distinct message ids,
a stored message with `repost_id` present never participates in a joined
pair of the co_link computation, because the URLs of repost tuples are
never inserted into `message_url` at ingestion. -/
theorem repost_exclusion (rows : List MsgRow) (T threshold : ℚ)
    (cands : List String) (ts : List InTuple)
    (hids : (ts.map (fun t => t.message_id)).Nodup) (m : MsgRow)
    (hm : m.repost_id.isSome = true) :
    (∀ p ∈ msgJoinedPairs coTweetPred rows T cands, p.1 ≠ m ∧ p.2 ≠ m) ∧
      (∀ p ∈ msgJoinedPairs coReplyPred rows T cands,
        p.1 ≠ m ∧ p.2 ≠ m) ∧
      (∀ p ∈ msgJoinedPairs (coSimilarPred threshold) rows T cands,
        p.1 ≠ m ∧ p.2 ≠ m) ∧
      (m ∈ (preprocess_data initialState ts).edge →
        ∀ p ∈ urlJoinedPairs
            (preprocess_data initialState ts).message_url T cands,
          p.1.message_id ≠ m.message_id ∧
            p.2.message_id ≠ m.message_id) := by
  refine ⟨joined_no_repost (fun a b h => coTweetPred_isNone h) hm,
    joined_no_repost (fun a b h => coReplyPred_isNone h) hm,
    joined_no_repost (fun a b h => coSimilarPred_isNone h) hm, ?_⟩
  intro hmedge p hp
  obtain ⟨hinv1, hinv2⟩ := preprocess_link_invariant ts initialState
    (by simp [initialState]) (by simp [initialState]) hids
    (by simp [initialState])
  unfold urlJoinedPairs at hp
  obtain ⟨hp1, hp2, _, _, _⟩ := mem_joinedPairs.mp hp
  constructor
  · intro heq
    obtain ⟨r, hr, hrid, hrnone⟩ := hinv2 p.1 hp1
    have hrm : r = m :=
      List.inj_on_of_nodup_map hinv1 hr hmedge (by rw [hrid, heq])
    rw [hrm] at hrnone
    exact absurd hm (by simp [hrnone])
  · intro heq
    obtain ⟨r, hr, hrid, hrnone⟩ := hinv2 p.2 hp2
    have hrm : r = m :=
      List.inj_on_of_nodup_map hinv1 hr hmedge (by rw [hrid, heq])
    rw [hrm] at hrnone
    exact absurd hm (by simp [hrnone])

/-- C3 witness: the repost exclusion theorem applied to the stored repost
row `exC3m` and the concrete distinct-id ingestion batch `exC3ts`. -/
theorem repost_exclusion_witness :
    (∀ p ∈ msgJoinedPairs coTweetPred [exC3m] 1 ["u1"],
      p.1 ≠ exC3m ∧ p.2 ≠ exC3m) ∧
      (∀ p ∈ msgJoinedPairs coReplyPred [exC3m] 1 ["u1"],
        p.1 ≠ exC3m ∧ p.2 ≠ exC3m) ∧
      (∀ p ∈ msgJoinedPairs (coSimilarPred 1) [exC3m] 1 ["u1"],
        p.1 ≠ exC3m ∧ p.2 ≠ exC3m) ∧
      (exC3m ∈ (preprocess_data initialState exC3ts).edge →
        ∀ p ∈ urlJoinedPairs
            (preprocess_data initialState exC3ts).message_url 1 ["u1"],
          p.1.message_id ≠ exC3m.message_id ∧
            p.2.message_id ≠ exC3m.message_id) :=
  repost_exclusion [exC3m] 1 1 ["u1"] exC3ts
    (by with_unfolding_all decide) exC3m (by with_unfolding_all decide)

end CoordNet

namespace CoordNet

/-! ### Claim theorems for the batching step (C5) -/

theorem pyRangeFuel_adequate (stop step : ℕ) :
    ∀ fuel fuel2 start, 0 < step → stop - start ≤ fuel →
      stop - start ≤ fuel2 →
      pyRangeFuel stop step fuel start = pyRangeFuel stop step fuel2 start := by
  intro fuel
  induction fuel with
  | zero =>
    intro fuel2 start hstep h1 h2
    have hlt : ¬start < stop := by omega
    cases fuel2 with
    | zero => rfl
    | succ m => simp [pyRangeFuel, hlt]
  | succ n ih =>
    intro fuel2 start hstep h1 h2
    cases fuel2 with
    | zero =>
      have hlt : ¬start < stop := by omega
      simp [pyRangeFuel, hlt]
    | succ m =>
      by_cases hlt : start < stop
      · simp only [pyRangeFuel, if_pos hlt]
        exact congrArg _ (ih m (start + step) hstep (by omega) (by omega))
      · simp [pyRangeFuel, hlt]

theorem pyRange_eq (start stop step : ℕ) (hstep : 0 < step) :
    pyRange start stop step =
      if start < stop then start :: pyRange (start + step) stop step
      else [] := by
  unfold pyRange
  by_cases hlt : start < stop
  · rw [if_pos hlt]
    have hss : stop - start = (stop - start - 1) + 1 := by omega
    rw [hss]
    simp only [pyRangeFuel, if_pos hlt]
    exact congrArg _ (pyRangeFuel_adequate stop step (stop - start - 1)
      (stop - (start + step)) (start + step) hstep (by omega) (by omega))
  · rw [if_neg hlt]
    have hz : stop - start = 0 := by omega
    rw [hz]
    rfl

theorem pyRange_shift (step c : ℕ) (hstep : 0 < step) :
    ∀ (fuel a b : ℕ), b - a ≤ fuel →
      pyRange (a + c) (b + c) step =
        (pyRange a b step).map (fun i => i + c) := by
  intro fuel
  induction fuel with
  | zero =>
    intro a b h
    rw [pyRange_eq (a + c) (b + c) step hstep, pyRange_eq a b step hstep]
    rw [if_neg (by omega), if_neg (by omega)]
    rfl
  | succ n ih =>
    intro a b h
    rw [pyRange_eq (a + c) (b + c) step hstep, pyRange_eq a b step hstep]
    by_cases hab : a < b
    · rw [if_pos (by omega), if_pos hab, List.map_cons]
      congr 1
      have harr : a + c + step = a + step + c := by omega
      rw [harr]
      exact ih (a + step) b (by omega)
    · rw [if_neg (by omega), if_neg hab]
      rfl

theorem userBatches_eq_chunks (bs : ℕ) (hbs : 1 ≤ bs) :
    ∀ (fuel : ℕ) (l : List String), l.length ≤ fuel →
      (pyRange 0 l.length bs).map (fun i => (l.drop i).take bs) =
        chunksRec bs l := by
  intro fuel
  induction fuel with
  | zero =>
    intro l h
    have hl : l = [] := List.eq_nil_of_length_eq_zero (by omega)
    subst hl
    rw [pyRange_eq 0 [].length bs hbs, if_neg (by simp)]
    simp [chunksRec]
  | succ n ih =>
    intro l h
    cases l with
    | nil =>
      rw [pyRange_eq 0 [].length bs hbs, if_neg (by simp)]
      simp [chunksRec]
    | cons x xs =>
      rw [pyRange_eq 0 (x :: xs).length bs hbs, if_pos (by simp),
        List.map_cons]
      conv_rhs => rw [chunksRec]
      have hmax : max bs 1 = bs := by omega
      rw [hmax, List.drop_zero]
      congr 1
      · have hsplit : pyRange (0 + bs) (x :: xs).length bs =
            (pyRange 0 ((x :: xs).length - bs) bs).map (fun i => i + bs) := by
          by_cases hle : bs ≤ (x :: xs).length
          · have hrw : (x :: xs).length = ((x :: xs).length - bs) + bs := by
              omega
            conv_lhs => rw [hrw]
            exact pyRange_shift bs bs hbs ((x :: xs).length - bs) 0
              ((x :: xs).length - bs) (by omega)
          · have h1 : pyRange (0 + bs) (x :: xs).length bs = [] := by
              rw [pyRange_eq _ _ _ hbs, if_neg (by omega)]
            have h2 : pyRange 0 ((x :: xs).length - bs) bs = [] := by
              rw [pyRange_eq _ _ _ hbs, if_neg (by omega)]
            rw [h1, h2]
            rfl
        rw [hsplit, List.map_map]
        rw [← ih ((x :: xs).drop bs)
          (by simp only [List.length_drop, List.length_cons] at h ⊢; omega)]
        rw [List.length_drop]
        apply List.map_congr_left
        intro i hi
        simp only [Function.comp]
        rw [List.drop_drop, Nat.add_comm bs i]

theorem chunksRec_flatten (bs : ℕ) (hbs : 1 ≤ bs) :
    ∀ (fuel : ℕ) (l : List String), l.length ≤ fuel →
      (chunksRec bs l).flatten = l := by
  intro fuel
  induction fuel with
  | zero =>
    intro l h
    have hl : l = [] := List.eq_nil_of_length_eq_zero (by omega)
    subst hl
    simp [chunksRec]
  | succ n ih =>
    intro l h
    cases l with
    | nil => simp [chunksRec]
    | cons x xs =>
      rw [chunksRec]
      have hmax : max bs 1 = bs := by omega
      rw [hmax, List.flatten_cons]
      rw [ih ((x :: xs).drop bs)
        (by simp only [List.length_drop, List.length_cons] at h ⊢; omega)]
      exact List.take_append_drop bs (x :: xs)

theorem chunksRec_mem_lengths (bs : ℕ) (hbs : 1 ≤ bs) :
    ∀ (fuel : ℕ) (l : List String), l.length ≤ fuel →
      ∀ b ∈ chunksRec bs l, b ≠ [] ∧ b.length ≤ bs := by
  intro fuel
  induction fuel with
  | zero =>
    intro l h b hb
    have hl : l = [] := List.eq_nil_of_length_eq_zero (by omega)
    subst hl
    simp [chunksRec] at hb
  | succ n ih =>
    intro l h b hb
    cases l with
    | nil => simp [chunksRec] at hb
    | cons x xs =>
      rw [chunksRec] at hb
      have hmax : max bs 1 = bs := by omega
      rw [hmax] at hb
      rcases List.mem_cons.mp hb with hhd | htl
      · subst hhd
        constructor
        · apply List.length_pos.mp
          rw [List.length_take]
          simp only [List.length_cons]
          omega
        · rw [List.length_take]
          exact min_le_left _ _
      · exact ih ((x :: xs).drop bs)
          (by simp only [List.length_drop, List.length_cons] at h ⊢; omega)
          b htl

theorem chunksRec_dropLast_lengths (bs : ℕ) (hbs : 1 ≤ bs) :
    ∀ (fuel : ℕ) (l : List String), l.length ≤ fuel →
      ∀ b ∈ (chunksRec bs l).dropLast, b.length = bs := by
  intro fuel
  induction fuel with
  | zero =>
    intro l h b hb
    have hl : l = [] := List.eq_nil_of_length_eq_zero (by omega)
    subst hl
    simp [chunksRec] at hb
  | succ n ih =>
    intro l h b hb
    cases l with
    | nil => simp [chunksRec] at hb
    | cons x xs =>
      rw [chunksRec] at hb
      have hmax : max bs 1 = bs := by omega
      rw [hmax] at hb
      cases hrest : chunksRec bs ((x :: xs).drop bs) with
      | nil =>
        rw [hrest] at hb
        simp at hb
      | cons y ys =>
        rw [hrest] at hb
        rw [List.dropLast_cons₂] at hb
        rcases List.mem_cons.mp hb with hhd | htl
        · subst hhd
          have hne : (x :: xs).drop bs ≠ [] := by
            intro hdrop
            rw [hdrop] at hrest
            simp [chunksRec] at hrest
          have hlt : bs < (x :: xs).length := by
            by_contra hge
            exact hne (List.drop_eq_nil_of_le (by omega))
          rw [List.length_take]
          omega
        · rw [← hrest] at htl
          exact ih ((x :: xs).drop bs)
            (by simp only [List.length_drop, List.length_cons] at h ⊢; omega)
            b htl

/-- C5 counterexample: with 11 candidate users and one worker the claimed
slice size max(ceil(11 / 10), 1) is 2, but the code computes
max(floor(11 / 10), 1) = 1 and every produced slice has length 1. -/
theorem batch_size_counterexample :
    batch_size ex5Users.length 1 = 1 ∧
      max ((ex5Users.length + target_batches 1 - 1) / target_batches 1) 1
        = 2 ∧
      ∀ b ∈ userBatches ex5Users 1, b.length = 1 := by
  decide

/-- C5 (amended): for every non-empty candidate list and `n_workers ≥ 1`,
the partitioning step splits the list into contiguous slices of size
`max(floor(|users| / (n_workers × 10)), 1)` — floor, not ceiling — the
last slice possibly shorter: the slices concatenate back to the list,
every slice is non-empty with length at most the batch size, and every
slice except the last has exactly the batch size. -/
theorem user_batches_floor (user_ids : List String) (n_processes : ℕ)
    (hne : user_ids ≠ []) (hn : 1 ≤ n_processes) :
    (userBatches user_ids n_processes).flatten = user_ids ∧
      (∀ b ∈ userBatches user_ids n_processes,
        b ≠ [] ∧ b.length ≤ batch_size user_ids.length n_processes) ∧
      ∀ b ∈ (userBatches user_ids n_processes).dropLast,
        b.length = batch_size user_ids.length n_processes := by
  have hbs : 1 ≤ batch_size user_ids.length n_processes := le_max_right _ 1
  have heq : userBatches user_ids n_processes =
      chunksRec (batch_size user_ids.length n_processes) user_ids := by
    unfold userBatches
    exact userBatches_eq_chunks _ hbs user_ids.length user_ids (le_refl _)
  rw [heq]
  exact ⟨chunksRec_flatten _ hbs user_ids.length user_ids (le_refl _),
    chunksRec_mem_lengths _ hbs user_ids.length user_ids (le_refl _),
    chunksRec_dropLast_lengths _ hbs user_ids.length user_ids (le_refl _)⟩

/-- C5 witness: the amended partition law at the 11-user, one-worker
instance (batch size 1). -/
theorem user_batches_floor_witness :
    (userBatches ex5Users 1).flatten = ex5Users ∧
      (∀ b ∈ userBatches ex5Users 1,
        b ≠ [] ∧ b.length ≤ batch_size ex5Users.length 1) ∧
      ∀ b ∈ (userBatches ex5Users 1).dropLast,
        b.length = batch_size ex5Users.length 1 :=
  user_batches_floor ex5Users 1 (by decide) (by decide)

end CoordNet

namespace CoordNet

/-! ### Claim theorems for the output adapter (C7, C8) -/

/-- C7: emission policy of the output adapter. For a known network kind
whose edge table exists, the adapter succeeds, and a row (u1, u2, w) is
emitted exactly when: with `symmetric = false` and `loops = false`,
`u2 > u1`; with `loops` only, `u2 ≥ u1`; with `symmetric` only,
`u1 ≠ u2`; with both, always — and every emitted row carries an
`edge_type` tag equal to the network kind. -/
theorem get_edge_rows_emission
    (db : List (String × List (String × String × ℕ)))
    (command table : String) (rows : List (String × String × ℕ))
    (symmetric loops : Bool)
    (hfind : COMMAND_TABLE_MAPPING.find? (fun x => x.1 == command) =
      some (command, table))
    (htab : lookupTable db table = some rows) :
    ∃ out, get_edge_rows db command symmetric loops = Except.ok out ∧
      ∀ u1 u2 w tag, (u1, u2, w, tag) ∈ out ↔
        ((u1, u2, w) ∈ rows ∧ tag = command ∧
          match symmetric, loops with
          | false, false => strLt u1 u2 = true
          | false, true => strLe u1 u2 = true
          | true, false => u1 ≠ u2
          | true, true => True) := by
  unfold get_edge_rows
  rw [hfind]
  dsimp only
  rw [htab]
  cases symmetric with
  | false =>
    cases loops with
    | false =>
      refine ⟨_, rfl, ?_⟩
      intro u1 u2 w tag
      constructor
      · intro hmem
        obtain ⟨r, hrf, heq⟩ := List.mem_map.mp hmem
        obtain ⟨r1, r2, r3⟩ := r
        simp only [Prod.mk.injEq] at heq
        obtain ⟨e1, e2, e3, e4⟩ := heq
        subst e1; subst e2; subst e3; subst e4
        obtain ⟨hr, hcond⟩ := List.mem_filter.mp hrf
        exact ⟨hr, rfl, hcond⟩
      · rintro ⟨hr, rfl, hcond⟩
        exact List.mem_map.mpr
          ⟨(u1, u2, w), List.mem_filter.mpr ⟨hr, hcond⟩, rfl⟩
    | true =>
      refine ⟨_, rfl, ?_⟩
      intro u1 u2 w tag
      constructor
      · intro hmem
        obtain ⟨r, hrf, heq⟩ := List.mem_map.mp hmem
        obtain ⟨r1, r2, r3⟩ := r
        simp only [Prod.mk.injEq] at heq
        obtain ⟨e1, e2, e3, e4⟩ := heq
        subst e1; subst e2; subst e3; subst e4
        obtain ⟨hr, hcond⟩ := List.mem_filter.mp hrf
        exact ⟨hr, rfl, hcond⟩
      · rintro ⟨hr, rfl, hcond⟩
        exact List.mem_map.mpr
          ⟨(u1, u2, w), List.mem_filter.mpr ⟨hr, hcond⟩, rfl⟩
  | true =>
    cases loops with
    | false =>
      refine ⟨_, rfl, ?_⟩
      intro u1 u2 w tag
      constructor
      · intro hmem
        obtain ⟨r, hrf, heq⟩ := List.mem_map.mp hmem
        obtain ⟨r1, r2, r3⟩ := r
        simp only [Prod.mk.injEq] at heq
        obtain ⟨e1, e2, e3, e4⟩ := heq
        subst e1; subst e2; subst e3; subst e4
        obtain ⟨hr, hcond⟩ := List.mem_filter.mp hrf
        exact ⟨hr, rfl, bne_iff_ne.mp hcond⟩
      · rintro ⟨hr, rfl, hcond⟩
        exact List.mem_map.mpr
          ⟨(u1, u2, w), List.mem_filter.mpr ⟨hr, bne_iff_ne.mpr hcond⟩,
            rfl⟩
    | true =>
      refine ⟨_, rfl, ?_⟩
      intro u1 u2 w tag
      constructor
      · intro hmem
        obtain ⟨r, hrf, heq⟩ := List.mem_map.mp hmem
        obtain ⟨r1, r2, r3⟩ := r
        simp only [Prod.mk.injEq] at heq
        obtain ⟨e1, e2, e3, e4⟩ := heq
        subst e1; subst e2; subst e3; subst e4
        exact ⟨hrf, rfl, trivial⟩
      · rintro ⟨hr, rfl, hcond⟩
        exact List.mem_map.mpr ⟨(u1, u2, w), hr, rfl⟩

/-- C7 witness: the emission law on the concrete one-table database
`exDb`, requesting co_retweet with both flags false. -/
theorem get_edge_rows_emission_witness :
    ∃ out, get_edge_rows exDb "co_retweet" false false = Except.ok out ∧
      ∀ u1 u2 w tag, (u1, u2, w, tag) ∈ out ↔
        ((u1, u2, w) ∈ exTableRows ∧ tag = "co_retweet" ∧
          strLt u1 u2 = true) :=
  get_edge_rows_emission exDb "co_retweet" "co_retweet_network"
    exTableRows false false (by decide) (by decide)

/-- C8: requesting output for a known network kind whose edge table has
not been computed reports an error to the caller, and requesting output
for a known kind whose table exists succeeds. -/
theorem output_error_on_missing_table
    (db : List (String × List (String × String × ℕ)))
    (command table : String) (symmetric loops : Bool)
    (hfind : COMMAND_TABLE_MAPPING.find? (fun x => x.1 == command) =
      some (command, table)) :
    (lookupTable db table = none →
      ∃ msg, get_edge_rows db command symmetric loops =
        Except.error msg) ∧
      ∀ rows, lookupTable db table = some rows →
        ∃ out, get_edge_rows db command symmetric loops =
          Except.ok out := by
  constructor
  · intro hnone
    unfold get_edge_rows
    rw [hfind]
    dsimp only
    rw [hnone]
    exact ⟨_, rfl⟩
  · intro rows hsome
    unfold get_edge_rows
    rw [hfind]
    dsimp only
    rw [hsome]
    exact ⟨_, rfl⟩

/-- C8 witness: on `exDb` (only co_retweet computed), requesting co_tweet
reports an error while requesting co_retweet succeeds. -/
theorem output_error_on_missing_table_witness :
    (∃ msg, get_edge_rows exDb "co_tweet" false false =
      Except.error msg) ∧
      ∃ out, get_edge_rows exDb "co_retweet" true true = Except.ok out :=
  ⟨(output_error_on_missing_table exDb "co_tweet" "co_tweet_network"
      false false (by decide)).1 (by decide),
    (output_error_on_missing_table exDb "co_retweet" "co_retweet_network"
      true true (by decide)).2 exTableRows (by decide)⟩

end CoordNet

namespace CoordNet

/-! ### Claim theorems for edge-set mirror symmetry (C1, amended) -/

theorem dedup_map_length_le {α β : Type} [DecidableEq β] (l : List α)
    (f : α → β) : ((l.map f).dedup).length ≤ l.length := by
  calc ((l.map f).dedup).length ≤ (l.map f).length :=
        List.Sublist.length_le (List.dedup_sublist _)
    _ = l.length := List.length_map _ _

theorem filter_length_mono {α : Type} {p q : α → Bool} :
    ∀ l : List α, (∀ a ∈ l, p a = true → q a = true) →
      (l.filter p).length ≤ (l.filter q).length := by
  intro l
  induction l with
  | nil => intro _; simp
  | cons x xs ih =>
    intro h
    have hxs : ∀ a ∈ xs, p a = true → q a = true :=
      fun a ha => h a (List.mem_cons_of_mem x ha)
    simp only [List.filter_cons]
    by_cases hp : p x = true
    · rw [if_pos hp, if_pos (h x (List.mem_cons_self x xs) hp)]
      simp only [List.length_cons]
      exact Nat.succ_le_succ (ih hxs)
    · rw [if_neg hp]
      by_cases hq : q x = true
      · rw [if_pos hq]
        exact le_trans (ih hxs) (Nat.le_succ _)
      · rw [if_neg hq]
        exact ih hxs

theorem similarity_comm (a b : String) : similarity a b = similarity b a := by
  show pyDiv ((tokenSet a ∩ tokenSet b).card : ℚ)
      ((tokenSet a ∪ tokenSet b).card : ℚ) =
    pyDiv ((tokenSet b ∩ tokenSet a).card : ℚ)
      ((tokenSet b ∪ tokenSet a).card : ℚ)
  rw [Finset.inter_comm, Finset.union_comm]

theorem coTweetPred_symm {a b : MsgRow} (h : coTweetPred a b = true) :
    coTweetPred b a = true := by
  unfold coTweetPred at h ⊢
  simp only [Bool.and_eq_true] at h ⊢
  exact ⟨⟨⟨⟨rowValEq_symm h.1.1.1.1, rowValEq_symm h.1.1.1.2⟩,
    rowValEq_symm h.1.1.2⟩, h.2⟩, h.1.2⟩

theorem coReplyPred_symm {a b : MsgRow} (h : coReplyPred a b = true) :
    coReplyPred b a = true := by
  unfold coReplyPred at h ⊢
  simp only [Bool.and_eq_true] at h ⊢
  exact ⟨⟨rowValEq_symm h.1.1, h.2⟩, h.1.2⟩

theorem coLinkPred_symm {a b : UrlRow} (h : coLinkPred a b = true) :
    coLinkPred b a = true := by
  unfold coLinkPred at h ⊢
  simp only [beq_iff_eq] at h ⊢
  exact h.symm

theorem coSimilarPred_symm {threshold : ℚ} {a b : MsgRow}
    (h : coSimilarPred threshold a b = true) :
    coSimilarPred threshold b a = true := by
  unfold coSimilarPred at h ⊢
  simp only [Bool.and_eq_true] at h ⊢
  refine ⟨⟨h.1.2, h.1.1⟩, ?_⟩
  have hmatch := h.2
  cases ha : a.token_set with
  | none =>
    cases hb : b.token_set with
    | none =>
      rw [ha, hb] at hmatch
      exact Bool.noConfusion hmatch
    | some s2 =>
      rw [ha, hb] at hmatch
      exact Bool.noConfusion hmatch
  | some s1 =>
    cases hb : b.token_set with
    | none =>
      rw [ha, hb] at hmatch
      exact Bool.noConfusion hmatch
    | some s2 =>
      rw [ha, hb] at hmatch
      show (similarity s2 s1).any (fun q => decide (threshold ≤ q)) = true
      rw [similarity_comm s2 s1]
      exact hmatch

theorem distinctSourceCount_pos {R : Type} {rows : List R}
    {userOf msgIdOf : R → String} {tsOf : R → ℚ} {pred : R → R → Bool}
    {T : ℚ} {mew : ℕ} {cands : List String} {u1 u2 : String} {w : ℕ}
    (hsymm : ∀ a b, pred a b = true → pred b a = true)
    (hmem : (u1, u2, w) ∈
      computeNetwork rows userOf msgIdOf tsOf pred T mew cands) :
    1 ≤ distinctSourceCount rows userOf msgIdOf tsOf pred T u2 u1 := by
  obtain ⟨⟨p, hp, hu1, hu2⟩, _, _⟩ := mem_computeNetwork.mp hmem
  obtain ⟨hp1, hp2, hpred, hband, _⟩ := mem_joinedPairs.mp hp
  unfold distinctSourceCount
  have hmf : p.2 ∈ rows.filter fun m1 => userOf m1 == u2 &&
      rows.any fun m2 => userOf m2 == u1 && pred m1 m2 &&
        timeBand T (tsOf m1) (tsOf m2) := by
    apply List.mem_filter.mpr
    refine ⟨hp2, ?_⟩
    simp only [Bool.and_eq_true, beq_iff_eq, List.any_eq_true]
    exact ⟨hu2, p.1, hp1, ⟨⟨hu1, hsymm _ _ hpred⟩, timeBand_symm hband⟩⟩
  exact List.length_pos.mpr (List.ne_nil_of_mem
    (List.mem_dedup.mpr (List.mem_map_of_mem _ hmf)))

theorem computeNetwork_mirror {R : Type} (rows : List R)
    (userOf msgIdOf : R → String) (tsOf : R → ℚ) (pred : R → R → Bool)
    (T : ℚ) (mew : ℕ) (cands : List String) (u1 u2 : String) (w : ℕ)
    (hsymm : ∀ a b, pred a b = true → pred b a = true)
    (hmem : (u1, u2, w) ∈
      computeNetwork rows userOf msgIdOf tsOf pred T mew cands)
    (hcand : u2 ∈ cands)
    (hrev : mew ≤ distinctSourceCount rows userOf msgIdOf tsOf pred T
      u2 u1) :
    (u2, u1, distinctSourceCount rows userOf msgIdOf tsOf pred T u2 u1) ∈
      computeNetwork rows userOf msgIdOf tsOf pred T mew cands := by
  obtain ⟨⟨p, hp, hu1, hu2⟩, _, _⟩ := mem_computeNetwork.mp hmem
  obtain ⟨hp1, hp2, hpred, hband, _⟩ := mem_joinedPairs.mp hp
  have hq : ((p.2, p.1) : R × R) ∈
      joinedPairs rows userOf tsOf pred T cands := by
    apply mem_joinedPairs.mpr
    refine ⟨hp2, hp1, hsymm _ _ hpred, timeBand_symm hband, ?_⟩
    show userOf p.2 ∈ cands
    rw [hu2]
    exact hcand
  apply mem_computeNetwork.mpr
  exact ⟨⟨(p.2, p.1), hq, hu2, hu1⟩,
    (groupWeight_eq_distinctSourceCount rows userOf msgIdOf tsOf pred T
      cands u2 u1 hcand).symm, hrev⟩

theorem candidates_adequate (rows : List MsgRow) (mew : ℕ)
    (relP : MsgRow → Bool) (pred : MsgRow → MsgRow → Bool) (T : ℚ)
    (u1 u2 : String) (m2 : MsgRow) (hm2 : m2 ∈ rows)
    (hu2 : m2.user_id = u2) (hrelm2 : relP m2 = true)
    (hrel : ∀ m ∈ rows, (∃ m1 ∈ rows, pred m m1 = true) → relP m = true)
    (hrev : mew ≤ msgSourceCount pred rows T u2 u1) :
    u2 ∈ (((rows.filter relP).map (fun r => r.user_id)).dedup).filter
      fun u => decide (mew ≤
        (rows.filter fun r => relP r && r.user_id == u).length) := by
  apply List.mem_filter.mpr
  refine ⟨List.mem_dedup.mpr (List.mem_map.mpr
    ⟨m2, List.mem_filter.mpr ⟨hm2, hrelm2⟩, hu2⟩), ?_⟩
  rw [decide_eq_true_eq]
  refine le_trans hrev ?_
  unfold msgSourceCount distinctSourceCount
  refine le_trans (dedup_map_length_le _ _) ?_
  apply filter_length_mono
  intro m hm hmt
  simp only [Bool.and_eq_true, beq_iff_eq, List.any_eq_true] at hmt ⊢
  obtain ⟨hu, m1, hm1, hcond⟩ := hmt
  exact ⟨hrel m hm ⟨m1, hm1, hcond.1.2⟩, hu⟩

theorem coRetweetCandidates_of_rev (rows : List MsgRow) (mew : ℕ)
    (T : ℚ) (u1 u2 : String) (m2 : MsgRow) (hm2 : m2 ∈ rows)
    (hu2 : m2.user_id = u2) (hsome : m2.repost_id.isSome = true)
    (hrev : mew ≤ msgSourceCount coRetweetPred rows T u2 u1) :
    u2 ∈ coRetweetCandidates rows mew := by
  unfold coRetweetCandidates
  exact candidates_adequate rows mew (fun r => r.repost_id.isSome)
    coRetweetPred T u1 u2 m2 hm2 hu2 hsome
    (fun m hm hex => by
      obtain ⟨m1, _, hp⟩ := hex
      exact (rowValEq_isSome hp).1)
    hrev

theorem nonRepostCandidates_of_rev (rows : List MsgRow) (mew : ℕ)
    (pred : MsgRow → MsgRow → Bool) (T : ℚ) (u1 u2 : String)
    (m2 : MsgRow) (hm2 : m2 ∈ rows) (hu2 : m2.user_id = u2)
    (hnone : m2.repost_id.isNone = true)
    (hrel : ∀ m ∈ rows, (∃ m1 ∈ rows, pred m m1 = true) →
      m.repost_id.isNone = true)
    (hrev : mew ≤ msgSourceCount pred rows T u2 u1) :
    u2 ∈ nonRepostCandidates rows mew := by
  unfold nonRepostCandidates
  exact candidates_adequate rows mew (fun r => r.repost_id.isNone) pred T
    u1 u2 m2 hm2 hu2 hnone hrel hrev

theorem coReplyCandidates_of_rev (rows : List MsgRow) (mew : ℕ) (T : ℚ)
    (u1 u2 : String) (m2 : MsgRow) (hm2 : m2 ∈ rows)
    (hu2 : m2.user_id = u2)
    (hrelm2 : (m2.repost_id.isNone && m2.reply_id.isSome) = true)
    (hrev : mew ≤ msgSourceCount coReplyPred rows T u2 u1) :
    u2 ∈ coReplyCandidates rows mew := by
  unfold coReplyCandidates
  exact candidates_adequate rows mew
    (fun r => r.repost_id.isNone && r.reply_id.isSome) coReplyPred T
    u1 u2 m2 hm2 hu2 hrelm2
    (fun m hm hex => by
      obtain ⟨m1, _, hp⟩ := hex
      unfold coReplyPred at hp
      simp only [Bool.and_eq_true] at hp ⊢
      exact ⟨hp.1.2, (rowValEq_isSome hp.1.1).1⟩)
    hrev

theorem coLinkCandidates_of_rev (mu : List UrlRow) (mew : ℕ) (T : ℚ)
    (u1 u2 : String) (ur : UrlRow) (hur : ur ∈ mu)
    (hu2 : ur.user_id = u2)
    (hrev : mew ≤ urlSourceCount mu T u2 u1) :
    u2 ∈ coLinkCandidates mu mew := by
  unfold coLinkCandidates
  apply List.mem_filter.mpr
  refine ⟨List.mem_dedup.mpr (List.mem_map.mpr ⟨ur, hur, hu2⟩), ?_⟩
  rw [decide_eq_true_eq]
  refine le_trans hrev ?_
  unfold urlSourceCount distinctSourceCount
  refine le_trans (dedup_map_length_le _ _) ?_
  apply filter_length_mono
  intro m hm hmt
  simp only [Bool.and_eq_true, beq_iff_eq] at hmt ⊢
  exact hmt.1

/-- C1 (amended): the edge sets are symmetric in support but not in
weight. For each of the five network computations and every row
(u1, u2, w) of its edge table, the mirror pair's own weight — the number
of distinct originating messages of u2 matching some message of u1 under
the kind's predicate within the window — is positive, and whenever it
reaches min_edge_weight the mirror row (u2, u1) is present carrying
exactly that weight; in particular with min_edge_weight = 1 the mirror
row always exists, though its weight can differ from w. -/
theorem network_mirror_edge (rows : List MsgRow) (mu : List UrlRow)
    (T threshold : ℚ) (mew : ℕ) (u1 u2 : String) (w : ℕ) :
    ((u1, u2, w) ∈ compute_co_retweet_parallel rows T mew →
      1 ≤ msgSourceCount coRetweetPred rows T u2 u1 ∧
        (mew ≤ msgSourceCount coRetweetPred rows T u2 u1 →
          (u2, u1, msgSourceCount coRetweetPred rows T u2 u1) ∈
            compute_co_retweet_parallel rows T mew)) ∧
      ((u1, u2, w) ∈ compute_co_tweet_network rows T mew →
        1 ≤ msgSourceCount coTweetPred rows T u2 u1 ∧
          (mew ≤ msgSourceCount coTweetPred rows T u2 u1 →
            (u2, u1, msgSourceCount coTweetPred rows T u2 u1) ∈
              compute_co_tweet_network rows T mew)) ∧
      ((u1, u2, w) ∈ compute_co_reply_network rows T mew →
        1 ≤ msgSourceCount coReplyPred rows T u2 u1 ∧
          (mew ≤ msgSourceCount coReplyPred rows T u2 u1 →
            (u2, u1, msgSourceCount coReplyPred rows T u2 u1) ∈
              compute_co_reply_network rows T mew)) ∧
      ((u1, u2, w) ∈ compute_co_similar_tweet rows T threshold mew →
        1 ≤ msgSourceCount (coSimilarPred threshold) rows T u2 u1 ∧
          (mew ≤ msgSourceCount (coSimilarPred threshold) rows T u2 u1 →
            (u2, u1,
              msgSourceCount (coSimilarPred threshold) rows T u2 u1) ∈
              compute_co_similar_tweet rows T threshold mew)) ∧
      ((u1, u2, w) ∈ compute_co_link_network mu T mew →
        1 ≤ urlSourceCount mu T u2 u1 ∧
          (mew ≤ urlSourceCount mu T u2 u1 →
            (u2, u1, urlSourceCount mu T u2 u1) ∈
              compute_co_link_network mu T mew)) := by
  refine ⟨?_, ?_, ?_, ?_, ?_⟩
  · intro hmem
    obtain ⟨⟨p, hp, hu1, hu2⟩, _, _⟩ := mem_computeNetwork.mp hmem
    obtain ⟨hp1, hp2, hpred, hband, _⟩ := mem_joinedPairs.mp hp
    refine ⟨distinctSourceCount_pos
      (fun a b h => coRetweetPred_symm h) hmem, fun hrev => ?_⟩
    exact computeNetwork_mirror rows _ _ _ coRetweetPred T mew _ u1 u2 w
      (fun a b h => coRetweetPred_symm h) hmem
      (coRetweetCandidates_of_rev rows mew T u1 u2 p.2 hp2 hu2
        (coRetweetPred_isSome_right hpred) hrev) hrev
  · intro hmem
    obtain ⟨⟨p, hp, hu1, hu2⟩, _, _⟩ := mem_computeNetwork.mp hmem
    obtain ⟨hp1, hp2, hpred, hband, _⟩ := mem_joinedPairs.mp hp
    refine ⟨distinctSourceCount_pos
      (fun a b h => coTweetPred_symm h) hmem, fun hrev => ?_⟩
    exact computeNetwork_mirror rows _ _ _ coTweetPred T mew _ u1 u2 w
      (fun a b h => coTweetPred_symm h) hmem
      (nonRepostCandidates_of_rev rows mew coTweetPred T u1 u2 p.2 hp2
        hu2 (coTweetPred_isNone hpred).2
        (fun m hm hex => by
          obtain ⟨m1, _, hq⟩ := hex
          exact (coTweetPred_isNone hq).1) hrev) hrev
  · intro hmem
    obtain ⟨⟨p, hp, hu1, hu2⟩, _, _⟩ := mem_computeNetwork.mp hmem
    obtain ⟨hp1, hp2, hpred, hband, _⟩ := mem_joinedPairs.mp hp
    refine ⟨distinctSourceCount_pos
      (fun a b h => coReplyPred_symm h) hmem, fun hrev => ?_⟩
    exact computeNetwork_mirror rows _ _ _ coReplyPred T mew _ u1 u2 w
      (fun a b h => coReplyPred_symm h) hmem
      (coReplyCandidates_of_rev rows mew T u1 u2 p.2 hp2 hu2
        (by
          unfold coReplyPred at hpred
          simp only [Bool.and_eq_true] at hpred ⊢
          exact ⟨hpred.2, (rowValEq_isSome hpred.1.1).2⟩) hrev) hrev
  · intro hmem
    obtain ⟨⟨p, hp, hu1, hu2⟩, _, _⟩ := mem_computeNetwork.mp hmem
    obtain ⟨hp1, hp2, hpred, hband, _⟩ := mem_joinedPairs.mp hp
    refine ⟨distinctSourceCount_pos
      (fun a b h => coSimilarPred_symm h) hmem, fun hrev => ?_⟩
    exact computeNetwork_mirror rows _ _ _ (coSimilarPred threshold) T
      mew _ u1 u2 w (fun a b h => coSimilarPred_symm h) hmem
      (nonRepostCandidates_of_rev rows mew (coSimilarPred threshold) T
        u1 u2 p.2 hp2 hu2 (coSimilarPred_isNone hpred).2
        (fun m hm hex => by
          obtain ⟨m1, _, hq⟩ := hex
          exact (coSimilarPred_isNone hq).1) hrev) hrev
  · intro hmem
    obtain ⟨⟨p, hp, hu1, hu2⟩, _, _⟩ := mem_computeNetwork.mp hmem
    obtain ⟨hp1, hp2, hpred, hband, _⟩ := mem_joinedPairs.mp hp
    refine ⟨distinctSourceCount_pos
      (fun a b h => coLinkPred_symm h) hmem, fun hrev => ?_⟩
    exact computeNetwork_mirror mu _ _ _ coLinkPred T mew _ u1 u2 w
      (fun a b h => coLinkPred_symm h) hmem
      (coLinkCandidates_of_rev mu mew T u1 u2 p.2 hp2 hu2 hrev) hrev

/-- C1 witness: the mirror law's co_retweet conjunct at the concrete row
("u1", "u2", 2) of the `exRows3` table with min_edge_weight 1: the mirror
row ("u2", "u1") carrying its own weight is in the table. -/
theorem network_mirror_edge_witness :
    ("u2", "u1", msgSourceCount coRetweetPred exRows3 1 "u2" "u1") ∈
      compute_co_retweet_parallel exRows3 1 1 :=
  ((network_mirror_edge exRows3 [] 1 1 1 "u1" "u2" 2).1
      (by with_unfolding_all decide)).2 (by with_unfolding_all decide)

end CoordNet
